import Mathlib

/-!
Verification of the local MapReduce simulator (Social-Media-stats-Mapreduce).

This file gives a shallow embedding in Lean of the pieces of the repository
that the verified claims are about:

* string helpers modelling the Python `str.strip`, `str.split(sep)` and
  `str.split(sep, 1)` operations used throughout the mappers/reducers;
* `join_activity_mapper.py` / `join_profile_mapper.py` (tagging and key
  salting);
* `join_reducer.py` (salt stripping and the grouped inner-join scan);
* `local_mapreduce.py` (`run_map_reduce_job` empty short-circuit, the sort
  phase of both job runners, and `run_join_job`'s stream concatenation);
* `skew_detection.py` (`analyze_key_distribution`);
* `cleansing_mapper.py` (field-count check and rejection counters).

Python floats are modelled as exact rationals (`ℚ`); machine floating point
is not re-modelled, and all inputs exercised here are far from any rounding
boundary.  Python process/IO plumbing (subprocess, stdin/stdout) is modelled
by passing the streams as explicit values.
-/

/-- The ASCII whitespace characters stripped by Python's `str.strip()`
(space, tab, newline, carriage return, vertical tab, form feed). -/
def pyWS (c : Char) : Bool :=
  c = ' ' || c = '\t' || c = '\n' || c = '\r' || c = Char.ofNat 11 || c = Char.ofNat 12

/-- Python `s.strip()`: drop leading and trailing whitespace. -/
def pythonStrip (s : String) : String :=
  String.mk (((s.data.dropWhile pyWS).reverse.dropWhile pyWS).reverse)

/-- Helper for `pySplit`: split a character list at every occurrence of `sep`,
with `acc` holding the (reversed) characters of the current field. -/
def splitAllAux (sep : Char) : List Char → List Char → List String
  | acc, [] => [String.mk acc.reverse]
  | acc, c :: cs =>
    if c = sep then String.mk acc.reverse :: splitAllAux sep [] cs
    else splitAllAux sep (c :: acc) cs

/-- Python `s.split(sep)` (single-character separator, no maxsplit):
splits at every occurrence, keeping empty fields; `''.split(sep) = ['']`. -/
def pySplit (sep : Char) (s : String) : List String :=
  splitAllAux sep [] s.data

/-- Helper for `splitOnce`: split a character list at the first occurrence of
`sep`, or `none` if `sep` does not occur. -/
def splitFirstAux (sep : Char) : List Char → Option (List Char × List Char)
  | [] => none
  | c :: cs =>
    if c = sep then some ([], cs)
    else (splitFirstAux sep cs).map (fun p => (c :: p.1, p.2))

/-- Python `s.split(sep, 1)` when it yields two fields: the part before the
first `sep` and the part after it.  `none` models the one-field result
(no separator present), which makes a two-variable unpacking raise. -/
def splitOnce (sep : Char) (s : String) : Option (String × String) :=
  (splitFirstAux sep s.data).map (fun p => (String.mk p.1, String.mk p.2))

/-- The characters of `l` strictly before the first occurrence of `sep`
(all of `l` if `sep` does not occur): the list-level core of
Python `s.split(sep)[0]`. -/
def takeWhileNe (sep : Char) : List Char → List Char
  | [] => []
  | c :: cs => if c = sep then [] else c :: takeWhileNe sep cs

/-- Key salting as performed by both join mappers
(`f"{user_id}_{i}"` in `join_activity_mapper.py` / `join_profile_mapper.py`). -/
def applySalt (k : String) (i : Nat) : String :=
  k ++ "_" ++ toString i

/-- Salt stripping as performed by `join_reducer.py`:
`if '_' in user_id: user_id = user_id.split('_')[0]`. -/
def stripSalt (u : String) : String :=
  if u.data.contains '_' then (pySplit '_' u).headD "" else u

/-! ### The merge-join engine: `join_reducer.py` -/

/-- The running state of `join_reducer.py`: the module-level variables
`current_user`, `profile_data`, `activity_data`. -/
structure JState where
  current_user : Option String
  profile_data : Option String
  activity_data : Option String

/-- The emission guard used both at a key change and at the final flush:
`if current_user is not None and profile_data is not None and activity_data
is not None: print(f"{current_user}\t{profile_data}\t{activity_data}")`.
Output records are kept as `(key, profileData, activityData)` triples;
`renderJoin` produces the printed line. -/
def flushJ (s : JState) : List (String × String × String) :=
  match s.current_user, s.profile_data, s.activity_data with
  | some c, some p, some a => [(c, p, a)]
  | _, _, _ => []

/-- The printed form of one join output record:
`print(f"{current_user}\t{profile_data}\t{activity_data}")`. -/
def renderJoin (t : String × String × String) : String :=
  t.1 ++ "\t" ++ t.2.1 ++ "\t" ++ t.2.2

/-- Models `data = tagged_data[2:]` (skip the tag character and the colon). -/
def tagData (tagged : String) : String :=
  String.mk (tagged.data.drop 2)

/-- Line parsing in `join_reducer.py`:
`user_id, tagged_data = line.strip().split('\t', 1)` followed by the salt
strip of `user_id`.  A line with no tab raises `ValueError` before any state
change and is skipped by the `except` handler, which `none` models. -/
def parseLine (line : String) : Option (String × String) :=
  (splitOnce '\t' (pythonStrip line)).map (fun p => (stripSalt p.1, p.2))

/-- One loop iteration of `join_reducer.py` on an already-parsed record
`(user_id, tagged_data)`.  If the (salt-stripped) key differs from
`current_user`, the previous user is flushed and the buffers reset; then the
record's value is stored into the buffer matching its tag.  A record whose
`tagged_data` is empty raises `IndexError` at `tagged_data[0]` *after* the
key-change block has run, so the boundary effects persist — the `none` head
case below. -/
def pStep (s : JState) (r : String × String) : JState × List (String × String × String) :=
  let s1 : JState := if s.current_user = some r.1 then s else ⟨some r.1, none, none⟩
  let out : List (String × String × String) :=
    if s.current_user = some r.1 then [] else flushJ s
  match r.2.data.head? with
  | none => (s1, out)
  | some t =>
    if t = 'P' then ({ s1 with profile_data := some (tagData r.2) }, out)
    else if t = 'A' then ({ s1 with activity_data := some (tagData r.2) }, out)
    else (s1, out)

/-- The main loop of `join_reducer.py` over parsed records, followed by the
final flush after the stream ends. -/
def pGo (s : JState) : List (String × String) → List (String × String × String)
  | [] => flushJ s
  | r :: rs => (pStep s r).2 ++ pGo (pStep s r).1 rs

/-- The whole of `join_reducer.py` run on a stream of input lines, starting from the
initial all-`None` state.  Lines that fail the two-field unpacking are
skipped with no state change (the `except` handler), which the `filterMap`
models. -/
def join_reducer (lines : List String) : List (String × String × String) :=
  pGo ⟨none, none, none⟩ (lines.filterMap parseLine)

/-! ### The shuffle sort and the join job runner: `local_mapreduce.py` -/

/-- Lexicographic comparison of character lists by code point, modelling
Python's string `<=`. -/
def listLe : List Char → List Char → Bool
  | [], _ => true
  | _ :: _, [] => false
  | a :: as, b :: bs => if a = b then listLe as bs else decide (a < b)

/-- Python string comparison `s <= t` (lexicographic on code points), the
order used by `sorted(...)` on whole lines. -/
def lineLe (s t : String) : Bool :=
  listLe s.data t.data

/-- The shuffle-sort phase: `sorted_lines = sorted(...)` over whole lines.
Python's `sorted` is a stable sort under the given comparison; `mergeSort`
is the matching stable sort. -/
def sortLines (lines : List String) : List String :=
  lines.mergeSort lineLe

unseal List.merge List.mergeSort

/-- The byte stream a sequence of `print(line)` calls produces on stdout. -/
def unlines (ls : List String) : String :=
  String.join (ls.map (· ++ "\n"))

/-- Stream concatenation in `run_join_job`:
`combined_output = activity_mapper_output.strip() + '\n' +
profile_mapper_output.strip()`, then split into lines by
`combined_output.split('\n')`. -/
def combinedLines (actOut profOut : String) : List String :=
  pySplit '\n' (pythonStrip actOut ++ "\n" ++ pythonStrip profOut)

/-- Models `run_join_job` from `local_mapreduce.py`, from the two mapper stdout
streams onward: concatenate, sort, reduce.  Output is the reducer's stream
of joined triples. -/
def run_join_job (actOut profOut : String) : List (String × String × String) :=
  join_reducer (sortLines (combinedLines actOut profOut))

/-- The lines `run_join_job` writes to the job's output file. -/
def run_join_job_rendered (actOut profOut : String) : List String :=
  (run_join_job actOut profOut).map renderJoin

/-! ### The two join mappers -/

/-- From `join_activity_mapper.py`: parsing of the `skewed.keys` environment
variable: `skewed_keys = set(skewed_keys_str.split(',')) if skewed_keys_str
else set()`. -/
def activitySkewedKeys (env : String) : List String :=
  if env = "" then [] else pySplit ',' env

/-- The constant `NUM_SALTS = 10` in `join_activity_mapper.py`. -/
def activityNumSalts : Nat := 10

/-- One loop iteration of `join_activity_mapper.py`: split the stripped line
once on tab; with fewer than two fields nothing is emitted; a skewed key is
fanned out over all salt indices, otherwise the single record is emitted
with the `A:` tag. -/
def activityMapLine (env : String) (line : String) : List String :=
  match splitOnce '\t' (pythonStrip line) with
  | none => []
  | some (user_id, activity_data) =>
    if (activitySkewedKeys env).contains user_id then
      (List.range activityNumSalts).map
        (fun i => applySalt user_id i ++ "\t" ++ "A:" ++ activity_data)
    else [user_id ++ "\t" ++ "A:" ++ activity_data]

/-- Runs `join_activity_mapper.py` over a whole input stream. -/
def join_activity_mapper (env : String) (lines : List String) : List String :=
  lines.flatMap (activityMapLine env)

/-- From `join_profile_mapper.py`: parsing of the `skewed.keys` environment
variable (textually identical to the activity mapper's). -/
def profileSkewedKeys (env : String) : List String :=
  if env = "" then [] else pySplit ',' env

/-- The constant `NUM_SALTS = 10` in `join_profile_mapper.py`. -/
def profileNumSalts : Nat := 10

/-- One loop iteration of `join_profile_mapper.py`: split the stripped line
once on tab (at least one field always results), take the part of the first
field before the first comma as the user id, keep the *entire* stripped line
as the profile data, and emit with the `P:` tag, fanning a skewed key over
all salt indices. -/
def profileMapLine (env : String) (line : String) : List String :=
  let stripped := pythonStrip line
  let fields := splitOnce '\t' stripped
  let f0 := match fields with
    | none => stripped
    | some p => p.1
  let user_id := (pySplit ',' f0).headD ""
  let profile_data := match fields with
    | none => f0
    | some p => f0 ++ "\t" ++ p.2
  if (profileSkewedKeys env).contains user_id then
    (List.range profileNumSalts).map
      (fun i => applySalt user_id i ++ "\t" ++ "P:" ++ profile_data)
  else [user_id ++ "\t" ++ "P:" ++ profile_data]

/-- Runs `join_profile_mapper.py` over a whole input stream. -/
def join_profile_mapper (env : String) (lines : List String) : List String :=
  lines.flatMap (profileMapLine env)

/-- The full join job as `main` wires it: both mappers (sharing one
environment) feed `run_join_job`, and the rendered lines are written out. -/
def full_join_job (env : String) (actLines profLines : List String) : List String :=
  run_join_job_rendered (unlines (join_activity_mapper env actLines))
    (unlines (join_profile_mapper env profLines))

/-! ### Auxiliary notions for the join-completeness analysis (claim C1) -/

/-- The contents of the two tag buffers after the reducer has scanned the
parsed records `run` without crossing a key boundary, starting from buffer
contents `p` (profile) and `a` (activity): each `P:`/`A:` record overwrites
its buffer (last value wins). -/
def runBufs : List (String × String) → Option String → Option String →
    Option String × Option String
  | [], p, a => (p, a)
  | r :: rs, p, a =>
    match r.2.data.head? with
    | none => runBufs rs p a
    | some t =>
      if t = 'P' then runBufs rs (some (tagData r.2)) a
      else if t = 'A' then runBufs rs p (some (tagData r.2))
      else runBufs rs p a

/-- Reference description of the reducer's output on a stream whose equal
keys are contiguous: one flush per maximal run of records sharing a
(salt-stripped) key. -/
def emittedGroups : List (String × String) → List (String × String × String)
  | [] => []
  | r :: rest =>
    flushJ ⟨some r.1,
        (runBufs (r :: rest.takeWhile (fun x => x.1 = r.1)) none none).1,
        (runBufs (r :: rest.takeWhile (fun x => x.1 = r.1)) none none).2⟩ ++
      emittedGroups (rest.dropWhile (fun x => x.1 = r.1))
termination_by l => l.length
decreasing_by
  simp only [List.length_cons]
  exact Nat.lt_succ_of_le ((List.dropWhile_sublist _).length_le)

/-- Helper for `groupedB`: scanning with the current run's key `cur` and the
set `seen` of keys whose runs are already closed; a closed key may not
reappear. -/
def groupedAux : List String → String → List String → Bool
  | [], _, _ => true
  | b :: l, cur, seen =>
    if b = cur then groupedAux l cur seen
    else if seen.contains b then false
    else groupedAux l b (cur :: seen)

/-- Holds when equal elements of `ks` are contiguous, i.e. the
key sequence consists of runs of pairwise distinct keys. -/
def groupedB : List String → Bool
  | [] => true
  | a :: l => groupedAux l a []

/-- The sequence of salt-stripped grouping keys of the parseable lines of a
stream, in stream order. -/
def keySeqOf (L : List String) : List String :=
  (L.filterMap parseLine).map Prod.fst

/-- Holds when `line` parses as a record whose
salt-stripped key is `k` and whose tagged value starts with tag `t`. -/
def hasRec (t : Char) (k : String) (line : String) : Bool :=
  match parseLine line with
  | some p => (p.1 == k) && (p.2.data.head? == some t)
  | none => false

/-- A parsed stream is grouped when it is a concatenation of runs, each run
holding all the records of one key. -/
inductive GroupedP : List (String × String) → Prop
  | nil : GroupedP []
  | grp (k : String) (run rest : List (String × String)) :
      (∀ x ∈ run, x.1 = k) → (∀ x ∈ rest, x.1 ≠ k) → GroupedP rest →
      GroupedP (run ++ rest)

/-! ### The pipeline executor: `run_map_reduce_job` -/

/-- Models `run_map_reduce_job` from `local_mapreduce.py`, from the mapper's stdout
onward.  The mapper/combiner/reducer subprocesses are modelled as functions
from their stdin text to their stdout text.  If the mapper output is blank
(`if not mapper_output.strip()`), an empty output file is written and the
job returns `True` without sorting, combining or reducing; otherwise the
stripped output is split into lines, sorted, optionally combined (and
re-sorted), joined with newlines, fed to the reducer, and the reducer's
stdout becomes the output file. -/
def run_map_reduce_job (mapperOut : String) (combiner : Option (String → String))
    (reducer : String → String) : String × Bool :=
  if pythonStrip mapperOut = "" then ("", true)
  else
    let sorted1 := sortLines (pySplit '\n' (pythonStrip mapperOut))
    let sorted2 := match combiner with
      | none => sorted1
      | some comb =>
        sortLines (pySplit '\n' (pythonStrip (comb (String.intercalate "\n" sorted1))))
    (reducer (String.intercalate "\n" sorted2), true)

/-! ### The skew profiler: `skew_detection.py` -/

/-- Key extraction in `analyze_key_distribution`:
`key = line.strip().split('\t')[0]`, then, for a composite key,
`if ',' in key: key = key.split(',')[0]`. -/
def skewKeyOf (line : String) : String :=
  let key := (pySplit '\t' (pythonStrip line)).headD ""
  if key.data.contains ',' then (pySplit ',' key).headD "" else key

/-- Helper for `firstDedup`: drop elements already seen. -/
def firstDedupAux : List String → List String → List String
  | [], _ => []
  | a :: l, seen =>
    if seen.contains a then firstDedupAux l seen
    else a :: firstDedupAux l (a :: seen)

/-- The distinct keys of a list in first-occurrence order: the iteration
order of the Python `Counter` (a dict keyed by first insertion). -/
def firstDedup (l : List String) : List String :=
  firstDedupAux l []

/-- Python `sorted` on a list of counts (ascending), used by the order
statistics. -/
def sortNat (l : List ℕ) : List ℕ :=
  l.mergeSort (fun a b => a ≤ b)

/-- Models `np.min` of a nonempty count list. -/
def listMin (l : List ℕ) : ℕ :=
  (sortNat l).headD 0

/-- Models `np.max` of a nonempty count list. -/
def listMax (l : List ℕ) : ℕ :=
  (sortNat l).getLastD 0

/-- Models `np.mean`. -/
def listMean (l : List ℕ) : ℚ :=
  (l.sum : ℚ) / l.length

/-- Models `np.median`: middle element of the sorted list, or the mean of the two
middle elements for an even length. -/
def listMedian (l : List ℕ) : ℚ :=
  let s := sortNat l
  let n := l.length
  if n % 2 = 1 then ((s.getD (n / 2) 0 : ℕ) : ℚ)
  else (((s.getD (n / 2 - 1) 0 : ℕ) : ℚ) + ((s.getD (n / 2) 0 : ℕ) : ℚ)) / 2

/-- Models `np.percentile` with the default linear interpolation: the value at
fractional rank `q/100 * (n-1)` of the sorted list. -/
def percentile (l : List ℕ) (q : ℚ) : ℚ :=
  let s := sortNat l
  let n := l.length
  let rank : ℚ := q * ((n : ℚ) - 1) / 100
  let lo : ℕ := Int.toNat ⌊rank⌋
  let hi : ℕ := Int.toNat ⌈rank⌉
  ((s.getD lo 0 : ℕ) : ℚ) +
    (rank - (lo : ℚ)) * (((s.getD hi 0 : ℕ) : ℚ) - ((s.getD lo 0 : ℕ) : ℚ))

/-- The mean squared deviation of the counts.  `np.std` is the square root
of this variance; the square root of a rational is irrational in general,
so the model records the variance (the square of the reported
`std_dev`). -/
def listVariance (l : List ℕ) : ℚ :=
  ((l.map (fun c => ((c : ℚ) - listMean l) ^ 2)).sum) / l.length

/-- The `distribution_stats` sub-object of the skew report.  The
`std_dev_sq` field carries the variance; see `listVariance`. -/
structure DistStats where
  min : ℕ
  max : ℕ
  median : ℚ
  mean : ℚ
  std_dev_sq : ℚ
  p90 : ℚ
  p95 : ℚ
  p99 : ℚ

/-- The `distribution_stats` values computed from the per-key counts. -/
def distStats (counts : List ℕ) : DistStats :=
  ⟨listMin counts, listMax counts, listMedian counts, listMean counts,
    listVariance counts, percentile counts 90, percentile counts 95,
    percentile counts 99⟩

/-- The JSON object `analyze_key_distribution` returns.  The two return
statements of the Python function build dicts with different key sets, so
every field is an `Option`: `none` models a key absent from the returned
dict. -/
structure SkewReport where
  total_records : Option ℕ
  unique_keys : Option ℕ
  average_records_per_key : Option ℚ
  skew_threshold : Option ℚ
  skewed_keys : Option (List String)
  skewed_keys_count : Option ℕ
  top_keys : Option (List (String × ℕ))
  distribution_stats : Option DistStats

/-- Models `analyze_key_distribution` from `skew_detection.py`.  One pass counts
records per primary key (`Counter`); an empty counter returns the reduced
degenerate dict; otherwise the threshold is the larger of
`skew_threshold_factor * total_records` and five times the mean per-key
count, the skewed keys are those whose count strictly exceeds it (in
counter insertion order), `top_keys` is the ten most common pairs, and the
order statistics are attached.  Python floats are modelled as exact
rationals. -/
def analyze_key_distribution (lines : List String) (skew_threshold_factor : ℚ) :
    SkewReport :=
  let keys := lines.map skewKeyOf
  let total_records : ℕ := lines.length
  if keys = [] then
    { total_records := some 0, unique_keys := some 0,
      average_records_per_key := none, skew_threshold := some 0,
      skewed_keys := some [], skewed_keys_count := none,
      top_keys := some [], distribution_stats := none }
  else
    let uniq := firstDedup keys
    let unique_keys := uniq.length
    let avg_records_per_key : ℚ := (total_records : ℚ) / (unique_keys : ℚ)
    let skew_threshold : ℚ :=
      max (skew_threshold_factor * (total_records : ℚ)) (avg_records_per_key * 5)
    let skewed_keys := uniq.filter (fun k => ((keys.count k : ℕ) : ℚ) > skew_threshold)
    let top_keys :=
      ((uniq.map (fun k => (k, keys.count k))).mergeSort (fun x y => y.2 ≤ x.2)).take 10
    let counts := uniq.map (fun k => keys.count k)
    { total_records := some total_records, unique_keys := some unique_keys,
      average_records_per_key := some avg_records_per_key,
      skew_threshold := some skew_threshold,
      skewed_keys := some skewed_keys,
      skewed_keys_count := some skewed_keys.length,
      top_keys := some top_keys,
      distribution_stats := some (distStats counts) }

/-- Runs `analyze_key_distribution` at its default `skew_threshold_factor=0.01`,
as `main` invokes it. -/
def analyze_key_distribution_default (lines : List String) : SkewReport :=
  analyze_key_distribution lines (1 / 100)

/-- Whether key `k` is reported in the `skewed_keys` field of the default
skew analysis of `lines`. -/
def skewedContains (lines : List String) (k : String) : Bool :=
  match (analyze_key_distribution_default lines).skewed_keys with
  | some sk => sk.contains k
  | none => false

/-! ### The cleansing mapper: `cleansing_mapper.py` -/

/-- The global `discarded_records` counter dict of `cleansing_mapper.py`. -/
structure CCounters where
  invalid_timestamp : ℕ
  malformed_json : ℕ
  missing_fields : ℕ
  total_discarded : ℕ

/-- One loop iteration of `cleansing_mapper.py`.  The timestamp and JSON
validators call the Python standard library (`re`/`datetime.strptime` and
`json.loads`), external collaborators here passed as boolean-valued
parameters.  A stripped line splitting into fewer than five tab-separated
fields bumps `missing_fields` and `total_discarded` and emits nothing
(`continue`); otherwise the first five fields are validated and a valid
record is re-emitted with `user_id` moved in front of `timestamp`. -/
def cleansingStep (validTS validJSON : String → Bool) (cs : CCounters)
    (line : String) : CCounters × List String :=
  let fields := pySplit '\t' (pythonStrip line)
  if fields.length < 5 then
    ({ cs with
        missing_fields := cs.missing_fields + 1
        total_discarded := cs.total_discarded + 1 }, [])
  else
    match fields with
    | timestamp :: user_id :: action_type :: content_id :: metadata_json :: _ =>
      if validTS timestamp = false then
        ({ cs with
            invalid_timestamp := cs.invalid_timestamp + 1
            total_discarded := cs.total_discarded + 1 }, [])
      else if validJSON metadata_json = false then
        ({ cs with
            malformed_json := cs.malformed_json + 1
            total_discarded := cs.total_discarded + 1 }, [])
      else
        (cs, [user_id ++ "\t" ++ timestamp ++ "\t" ++ action_type ++ "\t" ++
          content_id ++ "\t" ++ metadata_json])
    | _ => (cs, [])

/-- Runs `cleansing_mapper.py` over a whole input stream, threading the counter
state and concatenating the emitted records. -/
def cleansing_mapper (validTS validJSON : String → Bool) (cs : CCounters) :
    List String → CCounters × List String
  | [] => (cs, [])
  | l :: ls =>
    let step := cleansingStep validTS validJSON cs l
    let rest := cleansing_mapper validTS validJSON step.1 ls
    (rest.1, step.2 ++ rest.2)

/-! ### String-helper lemmas and claim C3 (salt round-trip) -/

theorem splitAllAux_headD (sep : Char) (acc l : List Char) :
    (splitAllAux sep acc l).headD "" = String.mk (acc.reverse ++ takeWhileNe sep l) := by
  induction l generalizing acc with
  | nil => simp [splitAllAux, takeWhileNe]
  | cons c cs ih =>
    by_cases h : c = sep
    · simp [splitAllAux, takeWhileNe, h]
    · simpa [splitAllAux, takeWhileNe, h] using ih (c :: acc)

theorem pySplit_headD (sep : Char) (s : String) :
    (pySplit sep s).headD "" = String.mk (takeWhileNe sep s.data) := by
  simpa using splitAllAux_headD sep [] s.data

theorem takeWhileNe_of_not_mem {sep : Char} {l : List Char} (h : sep ∉ l) :
    takeWhileNe sep l = l := by
  induction l with
  | nil => rfl
  | cons c cs ih =>
    have hc : c ≠ sep := fun hcs => h (hcs ▸ List.mem_cons_self c cs)
    have hcs : sep ∉ cs := fun hm => h (List.mem_cons_of_mem c hm)
    simp [takeWhileNe, hc, ih hcs]

theorem takeWhileNe_append_sep {sep : Char} {l : List Char} (h : sep ∉ l) (r : List Char) :
    takeWhileNe sep (l ++ sep :: r) = l := by
  induction l with
  | nil => simp [takeWhileNe]
  | cons c cs ih =>
    have hc : c ≠ sep := fun hcs => h (hcs ▸ List.mem_cons_self c cs)
    have hcs : sep ∉ cs := fun hm => h (List.mem_cons_of_mem c hm)
    simp [takeWhileNe, hc, ih hcs]

theorem takeWhileNe_idem (sep : Char) (l : List Char) :
    takeWhileNe sep (takeWhileNe sep l) = takeWhileNe sep l := by
  induction l with
  | nil => rfl
  | cons c cs ih =>
    by_cases h : c = sep
    · simp [takeWhileNe, h]
    · simp [takeWhileNe, h, ih]

/-- The function `stripSalt` computes the prefix of the key before its first underscore. -/
theorem stripSalt_eq (u : String) :
    stripSalt u = String.mk (takeWhileNe '_' u.data) := by
  by_cases hm : '_' ∈ u.data
  · have h : u.data.contains '_' = true := by simpa using hm
    have hs : stripSalt u = (pySplit '_' u).headD "" := by
      unfold stripSalt
      rw [h]
      simp
    rw [hs]
    exact pySplit_headD '_' u
  · have h : u.data.contains '_' = false := by simpa using hm
    have hs : stripSalt u = u := by
      unfold stripSalt
      rw [h]
      simp
    rw [hs, takeWhileNe_of_not_mem hm]

/-- Claim C3 (counterexample): for the key `"a_b"`, which itself contains the
salt separator, stripping the salt from the salted key does not recover the
original key (the reducer cuts at the first underscore), so the round-trip
law fails as universally stated. -/
theorem salt_roundtrip_cex :
    (0 < 10) ∧ stripSalt (applySalt "a_b" 0) ≠ "a_b" := by
  constructor
  · decide
  · decide

/-- Claim C3 (amended): for every key `k` that does not contain the salt
separator `'_'` and every salt index `i < 10`, stripping the salt suffix from
`k ++ "_" ++ i` recovers exactly `k`; moreover salt stripping is idempotent
on every string. -/
theorem salt_roundtrip (k : String) (i : Nat) (hi : i < 10) (hk : '_' ∉ k.data) :
    stripSalt (applySalt k i) = k ∧ ∀ s : String, stripSalt (stripSalt s) = stripSalt s := by
  constructor
  · rw [stripSalt_eq]
    have hdata : (applySalt k i).data = k.data ++ '_' :: (toString i).data := by
      simp [applySalt, String.data_append]
    rw [hdata, takeWhileNe_append_sep hk]
  · intro s
    rw [stripSalt_eq, stripSalt_eq]
    exact congrArg String.mk (takeWhileNe_idem '_' s.data)

/-- Witness for C3 at the concrete key `"user1"` and salt index `3`. -/
theorem salt_roundtrip_witness :
    stripSalt (applySalt "user1" 3) = "user1" ∧
      ∀ s : String, stripSalt (stripSalt s) = stripSalt s :=
  salt_roundtrip "user1" 3 (by decide) (by decide)

/-- Claim C2 (counterexample): joining the activity record
`u1⇥posts:3,likes:5,comments:0,shares:1` with the profile record
`u1,Alice,NYC` produces the single line
`u1⇥u1,Alice,NYC⇥posts:3,likes:5,comments:0,shares:1` — the profile field
retains the whole original record including the leading user id — and not
the claimed line `u1⇥Alice,NYC⇥posts:3,likes:5,comments:0,shares:1`. -/
theorem join_output_format_cex :
    full_join_job "" ["u1\tposts:3,likes:5,comments:0,shares:1"] ["u1,Alice,NYC"] =
        ["u1\tu1,Alice,NYC\tposts:3,likes:5,comments:0,shares:1"] ∧
      ("u1\tu1,Alice,NYC\tposts:3,likes:5,comments:0,shares:1" : String) ≠
        "u1\tAlice,NYC\tposts:3,likes:5,comments:0,shares:1" := by
  constructor
  · decide
  · decide

/-- Claim C2 (amended): the join output field order is
`key⇥profileData⇥activityData` with the profile (right) value before the
activity (left) value, where the profile value is the entire original
profile record including its leading user id: the scenario of the claim
produces exactly the one line
`u1⇥u1,Alice,NYC⇥posts:3,likes:5,comments:0,shares:1`, and a profile-only
user with no matching activity record produces no output line. -/
theorem join_output_format :
    full_join_job "" ["u1\tposts:3,likes:5,comments:0,shares:1"] ["u1,Alice,NYC"] =
        [renderJoin ("u1", "u1,Alice,NYC", "posts:3,likes:5,comments:0,shares:1")] ∧
      renderJoin ("u1", "u1,Alice,NYC", "posts:3,likes:5,comments:0,shares:1") =
        "u1\tu1,Alice,NYC\tposts:3,likes:5,comments:0,shares:1" ∧
      full_join_job "" [] ["u1,Alice,NYC"] = [] := by
  refine ⟨by decide, by decide, by decide⟩

/-! ### Claim C1: join completeness -/

theorem takeWhile_append_eq {α : Type} (q : α → Bool) (l r : List α)
    (hl : ∀ x ∈ l, q x = true) (hr : ∀ x ∈ r, q x = false) :
    (l ++ r).takeWhile q = l ∧ (l ++ r).dropWhile q = r := by
  induction l with
  | nil =>
    cases r with
    | nil => simp
    | cons c cs =>
      have hc : q c = false := hr c (List.mem_cons_self c cs)
      simp [List.takeWhile_cons, List.dropWhile_cons, hc]
  | cons b bs ih =>
    have hb : q b = true := hl b (List.mem_cons_self b bs)
    have ih' := ih (fun x hx => hl x (List.mem_cons_of_mem b hx))
    simp [List.takeWhile_cons, List.dropWhile_cons, hb, ih'.1, ih'.2]

theorem groupedAux_not_mem :
    ∀ (l : List String) (cur : String) (seen : List String),
      groupedAux l cur seen = true → ∀ x ∈ seen, x ≠ cur → x ∉ l := by
  intro l
  induction l with
  | nil => intro cur seen _ x _ _ hx; exact absurd hx (List.not_mem_nil x)
  | cons b l ih =>
    intro cur seen hg x hxseen hxcur
    by_cases hb : b = cur
    · have hg' : groupedAux l cur seen = true := by
        simpa [groupedAux, hb] using hg
      have hxl : x ∉ l := ih cur seen hg' x hxseen hxcur
      intro hmem
      rcases List.mem_cons.mp hmem with h | h
      · exact hxcur (h.trans hb)
      · exact hxl h
    · have hg2 : b ∉ seen ∧ groupedAux l b (cur :: seen) = true := by
        simpa [groupedAux, hb] using hg
      have hxb : x ≠ b := fun hxb => hg2.1 (hxb ▸ hxseen)
      have hxl : x ∉ l :=
        ih b (cur :: seen) hg2.2 x (List.mem_cons_of_mem cur hxseen) hxb
      intro hmem
      rcases List.mem_cons.mp hmem with h | h
      · exact hxb h
      · exact hxl h

theorem groupedAux_mono :
    ∀ (l : List String) (cur : String) (seen seen' : List String),
      (∀ x ∈ seen', x ∈ seen) → groupedAux l cur seen = true →
      groupedAux l cur seen' = true := by
  intro l
  induction l with
  | nil => intro cur seen seen' _ _; rfl
  | cons b l ih =>
    intro cur seen seen' hsub hg
    by_cases hb : b = cur
    · have hg' : groupedAux l cur seen = true := by
        simpa [groupedAux, hb] using hg
      simpa [groupedAux, hb] using ih cur seen seen' hsub hg'
    · have hg2 : b ∉ seen ∧ groupedAux l b (cur :: seen) = true := by
        simpa [groupedAux, hb] using hg
      have hbseen' : b ∉ seen' := fun hc => hg2.1 (hsub b hc)
      have hsub' : ∀ x ∈ (cur :: seen'), x ∈ (cur :: seen) := by
        intro x hx
        rcases List.mem_cons.mp hx with h | h
        · exact h ▸ List.mem_cons_self cur seen
        · exact List.mem_cons_of_mem cur (hsub x h)
      have hrec := ih b (cur :: seen) (cur :: seen') hsub' hg2.2
      simp [groupedAux, hb]
      exact ⟨hbseen', hrec⟩

theorem groupedAux_sound :
    ∀ (l : List String) (cur : String) (seen : List String),
      groupedAux l cur seen = true →
      cur ∉ l.dropWhile (fun x => x = cur) ∧
        groupedB (l.dropWhile (fun x => x = cur)) = true := by
  intro l
  induction l with
  | nil =>
    intro cur seen _
    exact ⟨List.not_mem_nil cur, rfl⟩
  | cons b l ih =>
    intro cur seen hg
    by_cases hb : b = cur
    · have hg' : groupedAux l cur seen = true := by
        simpa [groupedAux, hb] using hg
      simpa [List.dropWhile_cons, hb] using ih cur seen hg'
    · have hg2 : b ∉ seen ∧ groupedAux l b (cur :: seen) = true := by
        simpa [groupedAux, hb] using hg
      have hdrop : (b :: l).dropWhile (fun x => x = cur) = b :: l := by
        simp [List.dropWhile_cons, hb]
      rw [hdrop]
      constructor
      · have hcur_l : cur ∉ l :=
          groupedAux_not_mem l b (cur :: seen) hg2.2 cur
            (List.mem_cons_self cur seen) (fun h => hb h.symm)
        intro hmem
        rcases List.mem_cons.mp hmem with h | h
        · exact hb h.symm
        · exact hcur_l h
      · have : groupedAux l b [] = true :=
          groupedAux_mono l b (cur :: seen) [] (by intro x hx; cases hx) hg2.2
        simpa [groupedB] using this

theorem groupedB_toGroupedP :
    ∀ (n : ℕ) (P : List (String × String)), P.length ≤ n →
      groupedB (P.map Prod.fst) = true → GroupedP P := by
  intro n
  induction n with
  | zero =>
    intro P hlen _
    have : P = [] := List.length_eq_zero.mp (Nat.le_zero.mp hlen)
    exact this ▸ GroupedP.nil
  | succ n ih =>
    intro P hlen hg
    cases P with
    | nil => exact GroupedP.nil
    | cons r rest =>
      have hg' : groupedAux (rest.map Prod.fst) r.1 [] = true := by
        simpa [groupedB] using hg
      have hsound := groupedAux_sound (rest.map Prod.fst) r.1 [] hg'
      have hmapdrop :
          (rest.map Prod.fst).dropWhile (fun x => x = r.1) =
            (rest.dropWhile (fun x => x.1 = r.1)).map Prod.fst := by
        exact List.dropWhile_map Prod.fst (fun x => decide (x = r.1)) rest
      rw [hmapdrop] at hsound
      have hrest' : GroupedP (rest.dropWhile (fun x => x.1 = r.1)) := by
        refine ih _ ?_ hsound.2
        have h1 : (rest.dropWhile (fun x => x.1 = r.1)).length ≤ rest.length :=
          (List.dropWhile_sublist _).length_le
        have h2 : rest.length ≤ n := Nat.le_of_succ_le_succ hlen
        exact Nat.le_trans h1 h2
      have hgrp := GroupedP.grp r.1 (r :: rest.takeWhile (fun x => x.1 = r.1))
        (rest.dropWhile (fun x => x.1 = r.1))
        (by
          intro x hx
          rcases List.mem_cons.mp hx with h | h
          · exact h ▸ rfl
          · simpa using List.mem_takeWhile_imp h)
        (by
          intro x hx hx1
          exact hsound.1 (List.mem_map.mpr ⟨x, hx, hx1⟩))
        hrest'
      have hsplit : (r :: rest.takeWhile (fun x => x.1 = r.1)) ++
          rest.dropWhile (fun x => x.1 = r.1) = r :: rest := by
        simp [List.takeWhile_append_dropWhile]
      exact hsplit ▸ hgrp

theorem pGo_run :
    ∀ (k : String) (run : List (String × String)) (p a : Option String)
      (rest : List (String × String)),
      (∀ x ∈ run, x.1 = k) →
      pGo ⟨some k, p, a⟩ (run ++ rest) =
        pGo ⟨some k, (runBufs run p a).1, (runBufs run p a).2⟩ rest := by
  intro k run
  induction run generalizing k with
  | nil => intro p a rest _; simp [runBufs]
  | cons r rs ih =>
    intro p a rest h
    have hr : r.1 = k := h r (List.mem_cons_self r rs)
    have hrest : ∀ x ∈ rs, x.1 = k := fun x hx => h x (List.mem_cons_of_mem r hx)
    subst hr
    cases hh : r.2.data.head? with
    | none =>
      have hstep : pStep ⟨some r.1, p, a⟩ r = (⟨some r.1, p, a⟩, []) := by
        simp [pStep, hh]
      rw [List.cons_append, pGo, hstep]
      rw [show runBufs (r :: rs) p a = runBufs rs p a from by simp [runBufs, hh]]
      simpa using ih r.1 p a rest hrest
    | some t =>
      by_cases hP : t = 'P'
      · subst hP
        have hstep : pStep ⟨some r.1, p, a⟩ r =
            (⟨some r.1, some (tagData r.2), a⟩, []) := by
          simp [pStep, hh]
        rw [List.cons_append, pGo, hstep]
        rw [show runBufs (r :: rs) p a = runBufs rs (some (tagData r.2)) a from by
          simp [runBufs, hh]]
        simpa using ih r.1 (some (tagData r.2)) a rest hrest
      · by_cases hA : t = 'A'
        · subst hA
          have hstep : pStep ⟨some r.1, p, a⟩ r =
              (⟨some r.1, p, some (tagData r.2)⟩, []) := by
            simp [pStep, hh, hP]
          rw [List.cons_append, pGo, hstep]
          rw [show runBufs (r :: rs) p a = runBufs rs p (some (tagData r.2)) from by
            simp [runBufs, hh, hP]]
          simpa using ih r.1 p (some (tagData r.2)) rest hrest
        · have hstep : pStep ⟨some r.1, p, a⟩ r = (⟨some r.1, p, a⟩, []) := by
            simp [pStep, hh, hP, hA]
          rw [List.cons_append, pGo, hstep]
          rw [show runBufs (r :: rs) p a = runBufs rs p a from by
            simp [runBufs, hh, hP, hA]]
          simpa using ih r.1 p a rest hrest

theorem pGo_group :
    ∀ (k : String) (run : List (String × String)), run ≠ [] →
      (∀ x ∈ run, x.1 = k) →
      ∀ (s : JState), s.current_user ≠ some k →
      ∀ (rest : List (String × String)),
      pGo s (run ++ rest) =
        flushJ s ++
          pGo ⟨some k, (runBufs run none none).1, (runBufs run none none).2⟩ rest := by
  intro k run hne h s hcur rest
  cases run with
  | nil => exact absurd rfl hne
  | cons r rs =>
    have hr : r.1 = k := h r (List.mem_cons_self r rs)
    have hrest : ∀ x ∈ rs, x.1 = k := fun x hx => h x (List.mem_cons_of_mem r hx)
    subst hr
    have hcond : ¬ s.current_user = some r.1 := hcur
    cases hh : r.2.data.head? with
    | none =>
      have hstep : pStep s r = (⟨some r.1, none, none⟩, flushJ s) := by
        simp [pStep, hh, hcond]
      rw [List.cons_append, pGo, hstep]
      rw [show runBufs (r :: rs) none none = runBufs rs none none from by
        simp [runBufs, hh]]
      rw [pGo_run r.1 rs none none rest hrest]
    | some t =>
      by_cases hP : t = 'P'
      · subst hP
        have hstep : pStep s r = (⟨some r.1, some (tagData r.2), none⟩, flushJ s) := by
          simp [pStep, hh, hcond]
        rw [List.cons_append, pGo, hstep]
        rw [show runBufs (r :: rs) none none = runBufs rs (some (tagData r.2)) none from by
          simp [runBufs, hh]]
        rw [pGo_run r.1 rs (some (tagData r.2)) none rest hrest]
      · by_cases hA : t = 'A'
        · subst hA
          have hstep : pStep s r = (⟨some r.1, none, some (tagData r.2)⟩, flushJ s) := by
            simp [pStep, hh, hcond, hP]
          rw [List.cons_append, pGo, hstep]
          rw [show runBufs (r :: rs) none none = runBufs rs none (some (tagData r.2)) from by
            simp [runBufs, hh, hP]]
          rw [pGo_run r.1 rs none (some (tagData r.2)) rest hrest]
        · have hstep : pStep s r = (⟨some r.1, none, none⟩, flushJ s) := by
            simp [pStep, hh, hcond, hP, hA]
          rw [List.cons_append, pGo, hstep]
          rw [show runBufs (r :: rs) none none = runBufs rs none none from by
            simp [runBufs, hh, hP, hA]]
          rw [pGo_run r.1 rs none none rest hrest]

theorem emittedGroups_cons :
    ∀ (k : String) (r : String × String) (rs rest : List (String × String)),
      (∀ x ∈ r :: rs, x.1 = k) → (∀ x ∈ rest, x.1 ≠ k) →
      emittedGroups ((r :: rs) ++ rest) =
        flushJ ⟨some k, (runBufs (r :: rs) none none).1,
            (runBufs (r :: rs) none none).2⟩ ++
          emittedGroups rest := by
  intro k r rs rest hrun hrest
  have hr : r.1 = k := hrun r (List.mem_cons_self r rs)
  subst hr
  have htw := takeWhile_append_eq (fun x => decide (x.1 = r.1)) rs rest
    (by
      intro x hx
      exact decide_eq_true (hrun x (List.mem_cons_of_mem r hx)))
    (by
      intro x hx
      exact decide_eq_false (hrest x hx))
  rw [List.cons_append]
  conv_lhs => rw [emittedGroups]
  rw [htw.1, htw.2]

theorem pGo_grouped :
    ∀ (P : List (String × String)), GroupedP P →
      ∀ (s : JState), (∀ k0, s.current_user = some k0 → ∀ x ∈ P, x.1 ≠ k0) →
      pGo s P = flushJ s ++ emittedGroups P := by
  intro P hP
  induction hP with
  | nil =>
    intro s _
    simp [pGo, emittedGroups]
  | grp k run rest hrun hrest hg ih =>
    intro s hs
    cases run with
    | nil =>
      rw [List.nil_append]
      rw [List.nil_append] at hs
      exact ih s hs
    | cons r rs =>
      have hk : r.1 = k := hrun r (List.mem_cons_self r rs)
      have hcur : s.current_user ≠ some k := by
        intro hsc
        exact hs k hsc r (List.mem_append_left rest (List.mem_cons_self r rs)) hk
      rw [pGo_group k (r :: rs) (List.cons_ne_nil r rs) hrun s hcur rest]
      rw [ih ⟨some k, (runBufs (r :: rs) none none).1, (runBufs (r :: rs) none none).2⟩
        (by
          intro k0 h0 x hx
          have hk0 : k0 = k := by
            injection h0 with h0'
            exact h0'.symm
          exact hk0 ▸ hrest x hx)]
      rw [emittedGroups_cons k r rs rest hrun hrest]

theorem mem_flushJ_key :
    ∀ (c : Option String) (p a : Option String) (t : String × String × String),
      t ∈ flushJ ⟨c, p, a⟩ → c = some t.1 := by
  intro c p a t ht
  cases c with
  | none => simp [flushJ] at ht
  | some c' =>
    cases p with
    | none => simp [flushJ] at ht
    | some p' =>
      cases a with
      | none => simp [flushJ] at ht
      | some a' =>
        simp [flushJ] at ht
        rw [ht]

theorem flushJ_key_mem_iff :
    ∀ (k : String) (p a : Option String),
      (k ∈ (flushJ ⟨some k, p, a⟩).map Prod.fst) ↔ (p ≠ none ∧ a ≠ none) := by
  intro k p a
  cases p with
  | none => simp [flushJ]
  | some p' =>
    cases a with
    | none => simp [flushJ]
    | some a' => simp [flushJ]

theorem runBufs_fst_ne :
    ∀ (run : List (String × String)) (p a : Option String),
      ((runBufs run p a).1 ≠ none ↔
        (∃ x ∈ run, x.2.data.head? = some 'P') ∨ p ≠ none) := by
  intro run
  induction run with
  | nil => intro p a; simp [runBufs]
  | cons r rs ih =>
    intro p a
    cases hh : r.2.data.head? with
    | none =>
      rw [show runBufs (r :: rs) p a = runBufs rs p a from by simp [runBufs, hh]]
      rw [ih p a]
      constructor
      · rintro (⟨x, hx, hx2⟩ | hp)
        · exact Or.inl ⟨x, List.mem_cons_of_mem r hx, hx2⟩
        · exact Or.inr hp
      · rintro (⟨x, hx, hx2⟩ | hp)
        · rcases List.mem_cons.mp hx with h | h
          · rw [h, hh] at hx2
            exact absurd hx2 (by simp)
          · exact Or.inl ⟨x, h, hx2⟩
        · exact Or.inr hp
    | some t =>
      by_cases hP : t = 'P'
      · subst hP
        rw [show runBufs (r :: rs) p a = runBufs rs (some (tagData r.2)) a from by
          simp [runBufs, hh]]
        rw [ih (some (tagData r.2)) a]
        constructor
        · intro _
          exact Or.inl ⟨r, List.mem_cons_self r rs, hh⟩
        · intro _
          exact Or.inr (by simp)
      · by_cases hA : t = 'A'
        · subst hA
          rw [show runBufs (r :: rs) p a = runBufs rs p (some (tagData r.2)) from by
            simp [runBufs, hh, hP]]
          rw [ih p (some (tagData r.2))]
          constructor
          · rintro (⟨x, hx, hx2⟩ | hp)
            · exact Or.inl ⟨x, List.mem_cons_of_mem r hx, hx2⟩
            · exact Or.inr hp
          · rintro (⟨x, hx, hx2⟩ | hp)
            · rcases List.mem_cons.mp hx with h | h
              · rw [h, hh] at hx2
                have : ('A' : Char) = 'P' := by
                  injection hx2
                exact absurd this (by decide)
              · exact Or.inl ⟨x, h, hx2⟩
            · exact Or.inr hp
        · rw [show runBufs (r :: rs) p a = runBufs rs p a from by
            simp [runBufs, hh, hP, hA]]
          rw [ih p a]
          constructor
          · rintro (⟨x, hx, hx2⟩ | hp)
            · exact Or.inl ⟨x, List.mem_cons_of_mem r hx, hx2⟩
            · exact Or.inr hp
          · rintro (⟨x, hx, hx2⟩ | hp)
            · rcases List.mem_cons.mp hx with h | h
              · rw [h, hh] at hx2
                have ht' : t = 'P' := Option.some.inj hx2
                exact absurd ht' hP
              · exact Or.inl ⟨x, h, hx2⟩
            · exact Or.inr hp

theorem runBufs_snd_ne :
    ∀ (run : List (String × String)) (p a : Option String),
      ((runBufs run p a).2 ≠ none ↔
        (∃ x ∈ run, x.2.data.head? = some 'A') ∨ a ≠ none) := by
  intro run
  induction run with
  | nil => intro p a; simp [runBufs]
  | cons r rs ih =>
    intro p a
    cases hh : r.2.data.head? with
    | none =>
      rw [show runBufs (r :: rs) p a = runBufs rs p a from by simp [runBufs, hh]]
      rw [ih p a]
      constructor
      · rintro (⟨x, hx, hx2⟩ | hp)
        · exact Or.inl ⟨x, List.mem_cons_of_mem r hx, hx2⟩
        · exact Or.inr hp
      · rintro (⟨x, hx, hx2⟩ | hp)
        · rcases List.mem_cons.mp hx with h | h
          · rw [h, hh] at hx2
            exact absurd hx2 (by simp)
          · exact Or.inl ⟨x, h, hx2⟩
        · exact Or.inr hp
    | some t =>
      by_cases hP : t = 'P'
      · subst hP
        rw [show runBufs (r :: rs) p a = runBufs rs (some (tagData r.2)) a from by
          simp [runBufs, hh]]
        rw [ih (some (tagData r.2)) a]
        constructor
        · rintro (⟨x, hx, hx2⟩ | hp)
          · exact Or.inl ⟨x, List.mem_cons_of_mem r hx, hx2⟩
          · exact Or.inr hp
        · rintro (⟨x, hx, hx2⟩ | hp)
          · rcases List.mem_cons.mp hx with h | h
            · rw [h, hh] at hx2
              have : ('P' : Char) = 'A' := by
                injection hx2
              exact absurd this (by decide)
            · exact Or.inl ⟨x, h, hx2⟩
          · exact Or.inr hp
      · by_cases hA : t = 'A'
        · subst hA
          rw [show runBufs (r :: rs) p a = runBufs rs p (some (tagData r.2)) from by
            simp [runBufs, hh, hP]]
          rw [ih p (some (tagData r.2))]
          constructor
          · intro _
            exact Or.inl ⟨r, List.mem_cons_self r rs, hh⟩
          · intro _
            exact Or.inr (by simp)
        · rw [show runBufs (r :: rs) p a = runBufs rs p a from by
            simp [runBufs, hh, hP, hA]]
          rw [ih p a]
          constructor
          · rintro (⟨x, hx, hx2⟩ | hp)
            · exact Or.inl ⟨x, List.mem_cons_of_mem r hx, hx2⟩
            · exact Or.inr hp
          · rintro (⟨x, hx, hx2⟩ | hp)
            · rcases List.mem_cons.mp hx with h | h
              · rw [h, hh] at hx2
                have ht' : t = 'A' := Option.some.inj hx2
                exact absurd ht' hA
              · exact Or.inl ⟨x, h, hx2⟩
            · exact Or.inr hp

theorem emittedGroups_key_mem :
    ∀ (P : List (String × String)), GroupedP P →
      ∀ t ∈ emittedGroups P, t.1 ∈ P.map Prod.fst := by
  intro P hP
  induction hP with
  | nil =>
    intro t ht
    simp [emittedGroups] at ht
  | grp k run rest hrun hrest hg ih =>
    intro t ht
    cases run with
    | nil =>
      rw [List.nil_append] at ht ⊢
      exact ih t ht
    | cons r rs =>
      rw [emittedGroups_cons k r rs rest hrun hrest] at ht
      rcases List.mem_append.mp ht with h | h
      · have hkt : some k = some t.1 := mem_flushJ_key (some k) _ _ t h
        have : t.1 = k := (Option.some.inj hkt).symm
        rw [List.map_append, List.mem_append]
        left
        rw [List.map_cons, List.mem_cons]
        left
        rw [this, hrun r (List.mem_cons_self r rs)]
      · rw [List.map_append, List.mem_append]
        right
        exact ih t h

theorem emittedGroups_mem_iff :
    ∀ (P : List (String × String)), GroupedP P → ∀ (k : String),
      (k ∈ (emittedGroups P).map Prod.fst) ↔
        ((∃ x ∈ P, x.1 = k ∧ x.2.data.head? = some 'A') ∧
         (∃ x ∈ P, x.1 = k ∧ x.2.data.head? = some 'P')) := by
  intro P hP
  induction hP with
  | nil =>
    intro k
    simp [emittedGroups]
  | grp k0 run rest hrun hrest hg ih =>
    intro k
    cases run with
    | nil =>
      rw [List.nil_append]
      exact ih k
    | cons r rs =>
      rw [emittedGroups_cons k0 r rs rest hrun hrest]
      rw [List.map_append, List.mem_append]
      by_cases hk : k = k0
      · subst hk
        have hnotrest : ¬ k ∈ (emittedGroups rest).map Prod.fst := by
          intro hmem
          rcases List.mem_map.mp hmem with ⟨t, ht, h1⟩
          have hkeys := emittedGroups_key_mem rest hg t ht
          rcases List.mem_map.mp hkeys with ⟨x, hx, hx1⟩
          exact hrest x hx (by rw [hx1, h1])
        have hex : ∀ (t : Char),
            (∃ x ∈ (r :: rs) ++ rest, x.1 = k ∧ x.2.data.head? = some t) ↔
              (∃ x ∈ r :: rs, x.2.data.head? = some t) := by
          intro t
          constructor
          · rintro ⟨x, hx, hx1, hx2⟩
            rcases List.mem_append.mp hx with h | h
            · exact ⟨x, h, hx2⟩
            · exact absurd hx1 (hrest x h)
          · rintro ⟨x, hx, hx2⟩
            exact ⟨x, List.mem_append_left rest hx, hrun x hx, hx2⟩
        rw [hex 'A', hex 'P']
        rw [flushJ_key_mem_iff k (runBufs (r :: rs) none none).1
          (runBufs (r :: rs) none none).2]
        rw [runBufs_fst_ne, runBufs_snd_ne]
        constructor
        · rintro (⟨h1, h2⟩ | h)
          · rcases h1 with h1 | h1
            · rcases h2 with h2 | h2
              · exact ⟨h2, h1⟩
              · exact absurd rfl h2
            · exact absurd rfl h1
          · exact absurd h hnotrest
        · rintro ⟨hA, hP⟩
          exact Or.inl ⟨Or.inl hP, Or.inl hA⟩
      · have hflush : ¬ k ∈ (flushJ ⟨some k0, (runBufs (r :: rs) none none).1,
            (runBufs (r :: rs) none none).2⟩).map Prod.fst := by
          intro hmem
          rcases List.mem_map.mp hmem with ⟨t, ht, h1⟩
          have hkt : some k0 = some t.1 := mem_flushJ_key (some k0) _ _ t ht
          exact hk (by rw [← h1, ← Option.some.inj hkt])
        have hex : ∀ (t : Char),
            (∃ x ∈ (r :: rs) ++ rest, x.1 = k ∧ x.2.data.head? = some t) ↔
              (∃ x ∈ rest, x.1 = k ∧ x.2.data.head? = some t) := by
          intro t
          constructor
          · rintro ⟨x, hx, hx1, hx2⟩
            rcases List.mem_append.mp hx with h | h
            · exact absurd hx1 (by rw [hrun x h]; exact fun he => hk he.symm)
            · exact ⟨x, h, hx1, hx2⟩
          · rintro ⟨x, hx, hx1, hx2⟩
            exact ⟨x, List.mem_append_right (r :: rs) hx, hx1, hx2⟩
        rw [hex 'A', hex 'P']
        rw [← ih k]
        constructor
        · rintro (h | h)
          · exact absurd h hflush
          · exact h
        · intro h
          exact Or.inr h

theorem hasRec_any (t : Char) (k : String) (L : List String) :
    (∃ x ∈ L.filterMap parseLine, x.1 = k ∧ x.2.data.head? = some t) ↔
      L.any (hasRec t k) = true := by
  rw [List.any_eq_true]
  constructor
  · rintro ⟨x, hx, h1, h2⟩
    rcases List.mem_filterMap.mp hx with ⟨l, hl, hparse⟩
    refine ⟨l, hl, ?_⟩
    simp [hasRec, hparse, h1, h2]
  · rintro ⟨l, hl, hrec⟩
    unfold hasRec at hrec
    cases hp : parseLine l with
    | none =>
      rw [hp] at hrec
      exact absurd hrec (by simp)
    | some x =>
      rw [hp] at hrec
      simp only [Bool.and_eq_true, beq_iff_eq] at hrec
      exact ⟨x, List.mem_filterMap.mpr ⟨l, hl, hp⟩, hrec.1, hrec.2⟩

/-- Claim C1 (counterexample): the tagged streams `a⇥A:x` on the activity
side and `aB⇥P:y`, `a_5⇥P:z` on the profile side give the salt-stripped key
`a` at least one tag-`A` record and at least one tag-`P` record, yet the
join pipeline emits nothing: after sorting, the raw key `aB` lies strictly
between `a` and `a_5`, so the two stripped-`a` records are not contiguous
and the reducer's single-pass scan never holds both buffers at once.  The
claimed equivalence is therefore false for these streams. -/
theorem join_completeness_cex :
    ((combinedLines "a\tA:x" "aB\tP:y\na_5\tP:z").any (hasRec 'A' "a") = true) ∧
      ((combinedLines "a\tA:x" "aB\tP:y\na_5\tP:z").any (hasRec 'P' "a") = true) ∧
      ¬ ("a" ∈ (run_join_job "a\tA:x" "aB\tP:y\na_5\tP:z").map Prod.fst) := by
  refine ⟨by decide, by decide, by decide⟩

/-- Claim C1 (amended): for every pair of tagged streams fed through the
join pipeline (concatenated, sorted, reduced), *provided* records with equal
salt-stripped keys occupy contiguous positions of the sorted stream, a key
appears in the joined output iff the combined stream has at least one
record with tag `A` and at least one record with tag `P` under that
salt-stripped key (strict inner join). -/
theorem join_completeness (actOut profOut : String)
    (hg : groupedB (keySeqOf (sortLines (combinedLines actOut profOut))) = true)
    (k : String) :
    k ∈ (run_join_job actOut profOut).map Prod.fst ↔
      ((combinedLines actOut profOut).any (hasRec 'A' k) = true ∧
       (combinedLines actOut profOut).any (hasRec 'P' k) = true) := by
  have hgp : GroupedP ((sortLines (combinedLines actOut profOut)).filterMap parseLine) :=
    groupedB_toGroupedP
      ((sortLines (combinedLines actOut profOut)).filterMap parseLine).length _
      le_rfl hg
  have h0 : run_join_job actOut profOut =
      pGo ⟨none, none, none⟩
        ((sortLines (combinedLines actOut profOut)).filterMap parseLine) := rfl
  rw [h0, pGo_grouped _ hgp ⟨none, none, none⟩ (by intro k0 h0'; simp at h0')]
  rw [show flushJ ⟨none, none, none⟩ = [] from rfl, List.nil_append]
  rw [emittedGroups_mem_iff _ hgp k]
  have hperm : List.Perm (sortLines (combinedLines actOut profOut))
      (combinedLines actOut profOut) :=
    List.mergeSort_perm (combinedLines actOut profOut) lineLe
  have htrans : ∀ t : Char,
      (∃ x ∈ (sortLines (combinedLines actOut profOut)).filterMap parseLine,
          x.1 = k ∧ x.2.data.head? = some t) ↔
        (combinedLines actOut profOut).any (hasRec t k) = true := by
    intro t
    rw [hasRec_any t k, List.any_eq_true, List.any_eq_true]
    constructor
    · rintro ⟨l, hl, h⟩
      exact ⟨l, hperm.mem_iff.mp hl, h⟩
    · rintro ⟨l, hl, h⟩
      exact ⟨l, hperm.mem_iff.mpr hl, h⟩
  rw [htrans 'A', htrans 'P']

/-- Witness for C1: two singleton tagged streams for the key `u1`; the
grouping hypothesis holds and the key appears in the output with both tags
present. -/
theorem join_completeness_witness :
    groupedB (keySeqOf (sortLines (combinedLines "u1\tA:x" "u1\tP:y"))) = true ∧
      ("u1" ∈ (run_join_job "u1\tA:x" "u1\tP:y").map Prod.fst ↔
        ((combinedLines "u1\tA:x" "u1\tP:y").any (hasRec 'A' "u1") = true ∧
         (combinedLines "u1\tA:x" "u1\tP:y").any (hasRec 'P' "u1") = true)) :=
  ⟨by decide, join_completeness "u1\tA:x" "u1\tP:y" (by decide) "u1"⟩

/-! ### Claim C6: the shuffle sort, and claim C7: the empty short-circuit -/

theorem listLe_total : ∀ (l₁ l₂ : List Char), (listLe l₁ l₂ || listLe l₂ l₁) = true := by
  intro l₁
  induction l₁ with
  | nil => intro l₂; simp [listLe]
  | cons a as ih =>
    intro l₂
    cases l₂ with
    | nil => simp [listLe]
    | cons b bs =>
      by_cases hab : a = b
      · subst hab
        simp only [listLe, if_pos rfl]
        exact ih bs
      · have hba : ¬ b = a := fun h => hab h.symm
        simp only [listLe, if_neg hab, if_neg hba]
        rcases Ne.lt_or_lt hab with h | h
        · simp [h]
        · simp [h]

theorem listLe_trans :
    ∀ (l₁ l₂ l₃ : List Char), listLe l₁ l₂ = true → listLe l₂ l₃ = true →
      listLe l₁ l₃ = true := by
  intro l₁
  induction l₁ with
  | nil => intro _ _ _ _; simp [listLe]
  | cons a as ih =>
    intro l₂ l₃ h12 h23
    cases l₂ with
    | nil => simp [listLe] at h12
    | cons b bs =>
      cases l₃ with
      | nil => simp [listLe] at h23
      | cons c cs =>
        by_cases hab : a = b
        · subst hab
          by_cases hbc : a = c
          · subst hbc
            simp only [listLe, if_pos rfl] at h12 h23 ⊢
            exact ih bs cs h12 h23
          · simp only [listLe, if_neg hbc] at h23 ⊢
            exact h23
        · have hab' : a < b := by simpa [listLe, hab] using h12
          by_cases hbc : b = c
          · subst hbc
            simp [listLe, hab, hab']
          · have hbc' : b < c := by simpa [listLe, hbc] using h23
            have hac : a < c := lt_trans hab' hbc'
            simp [listLe, ne_of_lt hac, hac]

/-- Claim C6 (counterexample): the records `k⇥b` and `k⇥a` share the key
`k`, yet the shuffle sort swaps them: `sorted` compares entire lines, so
equal-key records with different values do not retain their input order. -/
theorem sort_stability_cex :
    (pySplit '\t' "k\tb").headD "" = (pySplit '\t' "k\ta").headD "" ∧
      sortLines ["k\tb", "k\ta"] = ["k\ta", "k\tb"] ∧
      (["k\ta", "k\tb"] : List String) ≠ ["k\tb", "k\ta"] := by
  refine ⟨by decide, by decide, by decide⟩

/-- Claim C6 (amended): the shuffle sort totally orders whole lines: its
output is a permutation of the mapped stream that is sorted under the
full-line lexicographic comparison.  Records whose entire lines are equal
are indistinguishable, but records with equal keys and different values are
ordered by their values, not by input position. -/
theorem sort_whole_lines (lines : List String) :
    List.Perm (sortLines lines) lines ∧
      List.Pairwise (fun a b => lineLe a b = true) (sortLines lines) := by
  constructor
  · exact List.mergeSort_perm lines lineLe
  · exact List.sorted_mergeSort
      (fun a b c hab hbc => listLe_trans a.data b.data c.data hab hbc)
      (fun a b => listLe_total a.data b.data) lines

/-- Claim C7: a blank mapper output makes `run_map_reduce_job` write an
empty output file and report success immediately: the result is `("",
True)` for every combiner and reducer, so the sort, combine and reduce
stages never run. -/
theorem empty_map_short_circuit (mapperOut : String)
    (combiner : Option (String → String)) (reducer : String → String)
    (h : pythonStrip mapperOut = "") :
    run_map_reduce_job mapperOut combiner reducer = ("", true) := by
  simp [run_map_reduce_job, h]

/-- Witness for C7: a whitespace-only mapper output. -/
theorem empty_map_short_circuit_witness :
    run_map_reduce_job " \n\t " none (fun s => s) = ("", true) :=
  empty_map_short_circuit " \n\t " none (fun s => s) (by decide)

/-! ### Claim C9: the cleansing mapper on tab-less lines -/

theorem splitAllAux_of_not_mem :
    ∀ (sep : Char) (acc l : List Char), sep ∉ l →
      splitAllAux sep acc l = [String.mk (acc.reverse ++ l)] := by
  intro sep acc l
  induction l generalizing acc with
  | nil => intro _; simp [splitAllAux]
  | cons c cs ih =>
    intro h
    have hc : ¬ c = sep := fun hcs => h (hcs ▸ List.mem_cons_self c cs)
    have hcs : sep ∉ cs := fun hm => h (List.mem_cons_of_mem c hm)
    rw [show splitAllAux sep acc (c :: cs) = splitAllAux sep (c :: acc) cs from by
      simp [splitAllAux, hc]]
    rw [ih (c :: acc) hcs]
    simp

theorem pySplit_of_not_mem (sep : Char) (s : String) (h : sep ∉ s.data) :
    pySplit sep s = [s] := by
  have := splitAllAux_of_not_mem sep [] s.data h
  simpa [pySplit] using this

/-- Claim C9: a line with no tab separator (after stripping) makes the
cleansing mapper bump `missing_fields` and `total_discarded` by one, emit
no output record, and continue with the rest of the stream unchanged, for
any timestamp/JSON validators and any starting counter values. -/
theorem cleansing_no_tab (validTS validJSON : String → Bool) (cs : CCounters)
    (line : String) (rest : List String) (h : '\t' ∉ (pythonStrip line).data) :
    cleansing_mapper validTS validJSON cs (line :: rest) =
      cleansing_mapper validTS validJSON
        { cs with
          missing_fields := cs.missing_fields + 1
          total_discarded := cs.total_discarded + 1 } rest := by
  have hstep : cleansingStep validTS validJSON cs line =
      ({ cs with
          missing_fields := cs.missing_fields + 1
          total_discarded := cs.total_discarded + 1 }, []) := by
    unfold cleansingStep
    rw [pySplit_of_not_mem '\t' (pythonStrip line) h]
    simp
  simp [cleansing_mapper, hstep]

/-- Witness for C9: the literal line `badline` with zeroed counters and
trivial validators. -/
theorem cleansing_no_tab_witness :
    cleansing_mapper (fun _ => true) (fun _ => true) ⟨0, 0, 0, 0⟩ ["badline"] =
      cleansing_mapper (fun _ => true) (fun _ => true) ⟨0, 0, 0 + 1, 0 + 1⟩ [] :=
  cleansing_no_tab (fun _ => true) (fun _ => true) ⟨0, 0, 0, 0⟩ "badline" []
    (by decide)

/-! ### Claim C10: the two mappers salt consistently -/

theorem splitFirstAux_append :
    ∀ (sep : Char) (l r : List Char), sep ∉ l →
      splitFirstAux sep (l ++ sep :: r) = some (l, r) := by
  intro sep l r
  induction l with
  | nil => intro _; simp [splitFirstAux]
  | cons c cs ih =>
    intro h
    have hc : ¬ c = sep := fun hcs => h (hcs ▸ List.mem_cons_self c cs)
    have hcs : sep ∉ cs := fun hm => h (List.mem_cons_of_mem c hm)
    simp [splitFirstAux, hc, ih hcs]

theorem splitOnce_append (k v : String) (h : '\t' ∉ k.data) :
    splitOnce '\t' (k ++ "\t" ++ v) = some (k, v) := by
  have hdata : (k ++ "\t" ++ v).data = k.data ++ '\t' :: v.data := by
    simp [String.data_append]
  rw [splitOnce, hdata, splitFirstAux_append '\t' k.data v.data h]
  simp

theorem pySplit_headD_self (sep : Char) (k : String) (h : sep ∉ k.data) :
    (pySplit sep k).headD "" = k := by
  rw [pySplit_headD, takeWhileNe_of_not_mem h]

/-- Claim C10: the two join mappers salt consistently.  They parse the
`skewed.keys` environment value identically, both use `NUM_SALTS = 10` with
salt indices `0..9` and the separator `'_'` (via `applySalt`); on a clean
two-field record whose key is in the skewed set, each mapper emits exactly
ten salted records (one per index) carrying its tagged value, and a key not
in the set is emitted once with its key unchanged. -/
theorem salting_consistent :
    (∀ env, activitySkewedKeys env = profileSkewedKeys env) ∧
    activityNumSalts = profileNumSalts ∧
    activityNumSalts = 10 ∧
    (∀ env k v, '\t' ∉ k.data → pythonStrip (k ++ "\t" ++ v) = k ++ "\t" ++ v →
      ((activitySkewedKeys env).contains k = true →
        activityMapLine env (k ++ "\t" ++ v) =
          (List.range 10).map (fun i => applySalt k i ++ "\t" ++ "A:" ++ v)) ∧
      ((activitySkewedKeys env).contains k = false →
        activityMapLine env (k ++ "\t" ++ v) = [k ++ "\t" ++ "A:" ++ v])) ∧
    (∀ env k v, '\t' ∉ k.data → ',' ∉ k.data →
        pythonStrip (k ++ "\t" ++ v) = k ++ "\t" ++ v →
      ((profileSkewedKeys env).contains k = true →
        profileMapLine env (k ++ "\t" ++ v) =
          (List.range 10).map
            (fun i => applySalt k i ++ "\t" ++ "P:" ++ (k ++ "\t" ++ v))) ∧
      ((profileSkewedKeys env).contains k = false →
        profileMapLine env (k ++ "\t" ++ v) = [k ++ "\t" ++ "P:" ++ (k ++ "\t" ++ v)])) := by
  refine ⟨fun env => rfl, rfl, rfl, ?_, ?_⟩
  · intro env k v htab hstrip
    have hsplit := splitOnce_append k v htab
    constructor
    · intro hsk
      have hmem : k ∈ activitySkewedKeys env := by simpa using hsk
      unfold activityMapLine
      rw [hstrip]
      simp [hsplit, hmem, activityNumSalts]
    · intro hsk
      have hmem : k ∉ activitySkewedKeys env := by simpa using hsk
      unfold activityMapLine
      rw [hstrip]
      simp [hsplit, hmem]
  · intro env k v htab hcomma hstrip
    have hhead : (pySplit ',' k).headD "" = k := pySplit_headD_self ',' k hcomma
    have hhead2 : (pySplit ',' k).head?.getD "" = k := by simpa using hhead
    have hsplit := splitOnce_append k v htab
    constructor
    · intro hsk
      have hmem : k ∈ profileSkewedKeys env := by simpa using hsk
      unfold profileMapLine
      rw [hstrip]
      simp [hsplit, hhead2, hmem, profileNumSalts]
    · intro hsk
      have hmem : k ∉ profileSkewedKeys env := by simpa using hsk
      unfold profileMapLine
      rw [hstrip]
      simp [hsplit, hhead2, hmem]

/-- Witness for C10: with `skewed.keys = "u1,u2"` the skewed key `u1` fans
out to ten salted activity records, and with an empty environment the key
`u9` passes through the profile mapper once, unchanged. -/
theorem salting_consistent_witness :
    activityMapLine "u1,u2" ("u1" ++ "\t" ++ "x") =
      (List.range 10).map (fun i => applySalt "u1" i ++ "\t" ++ "A:" ++ "x") ∧
    profileMapLine "" ("u9" ++ "\t" ++ "y") =
      ["u9" ++ "\t" ++ "P:" ++ ("u9" ++ "\t" ++ "y")] :=
  ⟨(salting_consistent.2.2.2.1 "u1,u2" "u1" "x" (by decide) (by decide)).1 (by decide),
   (salting_consistent.2.2.2.2 "" "u9" "y" (by decide) (by decide) (by decide)).2
     (by decide)⟩

/-! ### Claims C4, C5, C8: the skew profiler -/

theorem firstDedupAux_cons_mem (a : String) (l seen : List String)
    (h : seen.contains a = true) :
    firstDedupAux (a :: l) seen = firstDedupAux l seen := by
  conv_lhs => rw [firstDedupAux]
  rw [if_pos h]

theorem firstDedupAux_cons_not_mem (a : String) (l seen : List String)
    (h : seen.contains a = false) :
    firstDedupAux (a :: l) seen = a :: firstDedupAux l (a :: seen) := by
  conv_lhs => rw [firstDedupAux]
  rw [if_neg (show ¬(seen.contains a = true) by rw [h]; simp)]

theorem firstDedupAux_mem :
    ∀ (l seen : List String) (k : String),
      k ∈ firstDedupAux l seen ↔ (k ∈ l ∧ k ∉ seen) := by
  intro l
  induction l with
  | nil => intro seen k; simp [firstDedupAux]
  | cons a l ih =>
    intro seen k
    by_cases hc : a ∈ seen
    · have hcb : seen.contains a = true := by simpa using hc
      rw [firstDedupAux_cons_mem a l seen hcb]
      rw [ih seen k]
      constructor
      · rintro ⟨h1, h2⟩
        exact ⟨List.mem_cons_of_mem a h1, h2⟩
      · rintro ⟨h1, h2⟩
        rcases List.mem_cons.mp h1 with h | h
        · exact absurd (h ▸ hc) h2
        · exact ⟨h, h2⟩
    · have hcb : seen.contains a = false := by simpa using hc
      rw [firstDedupAux_cons_not_mem a l seen hcb]
      constructor
      · intro hmem
        rcases List.mem_cons.mp hmem with h | h
        · exact ⟨h ▸ List.mem_cons_self a l, h ▸ hc⟩
        · have := (ih (a :: seen) k).mp h
          refine ⟨List.mem_cons_of_mem a this.1,
            fun hk => this.2 (List.mem_cons_of_mem a hk)⟩
      · rintro ⟨h1, h2⟩
        by_cases hka : k = a
        · exact hka ▸ List.mem_cons_self a _
        · rcases List.mem_cons.mp h1 with h | h
          · exact absurd h hka
          · refine List.mem_cons_of_mem a ((ih (a :: seen) k).mpr ⟨h, ?_⟩)
            intro hk
            rcases List.mem_cons.mp hk with h' | h'
            · exact hka h'
            · exact h2 h'

theorem firstDedup_mem (l : List String) (k : String) :
    k ∈ firstDedup l ↔ k ∈ l := by
  rw [firstDedup, firstDedupAux_mem l [] k]
  simp

theorem firstDedupAux_all_seen :
    ∀ (ys seen : List String), (∀ y ∈ ys, y ∈ seen) → firstDedupAux ys seen = [] := by
  intro ys
  induction ys with
  | nil => intro seen _; rfl
  | cons a ys ih =>
    intro seen h
    have ha : seen.contains a = true := by
      simpa using h a (List.mem_cons_self a ys)
    rw [firstDedupAux_cons_mem a ys seen ha]
    exact ih seen (fun y hy => h y (List.mem_cons_of_mem a hy))

theorem firstDedupAux_absorb :
    ∀ (xs : List String) (seen ys : List String),
      (∀ y ∈ ys, y ∈ xs ∨ y ∈ seen) →
      firstDedupAux (xs ++ ys) seen = firstDedupAux xs seen := by
  intro xs
  induction xs with
  | nil =>
    intro seen ys h
    have h' : ∀ y ∈ ys, y ∈ seen := by
      intro y hy
      rcases h y hy with h0 | h0
      · exact absurd h0 (List.not_mem_nil y)
      · exact h0
    simpa using firstDedupAux_all_seen ys seen h'
  | cons a xs ih =>
    intro seen ys h
    by_cases hc : a ∈ seen
    · have hcb : seen.contains a = true := by simpa using hc
      rw [List.cons_append, firstDedupAux_cons_mem a (xs ++ ys) seen hcb,
        firstDedupAux_cons_mem a xs seen hcb]
      refine ih seen ys ?_
      intro y hy
      rcases h y hy with h0 | h0
      · rcases List.mem_cons.mp h0 with h1 | h1
        · exact Or.inr (h1 ▸ hc)
        · exact Or.inl h1
      · exact Or.inr h0
    · have hcb : seen.contains a = false := by simpa using hc
      rw [List.cons_append, firstDedupAux_cons_not_mem a (xs ++ ys) seen hcb,
        firstDedupAux_cons_not_mem a xs seen hcb]
      refine congrArg (a :: ·) (ih (a :: seen) ys ?_)
      intro y hy
      rcases h y hy with h0 | h0
      · rcases List.mem_cons.mp h0 with h1 | h1
        · exact Or.inr (h1 ▸ List.mem_cons_self a seen)
        · exact Or.inl h1
      · exact Or.inr (List.mem_cons_of_mem a h0)

theorem firstDedup_append_absorb (xs ys : List String)
    (h : ∀ y ∈ ys, y ∈ xs) :
    firstDedup (xs ++ ys) = firstDedup xs :=
  firstDedupAux_absorb xs [] ys (fun y hy => Or.inl (h y hy))

theorem skewKeyOf_eq (l : String) :
    skewKeyOf l =
      String.mk (takeWhileNe ',' (takeWhileNe '\t' (pythonStrip l).data)) := by
  have hk : (pySplit '\t' (pythonStrip l)).headD "" =
      String.mk (takeWhileNe '\t' (pythonStrip l).data) := pySplit_headD '\t' _
  by_cases hm : ',' ∈ takeWhileNe '\t' (pythonStrip l).data
  · have hc : (String.mk (takeWhileNe '\t' (pythonStrip l).data)).data.contains ',' = true := by
      simpa using hm
    have hs : skewKeyOf l =
        (pySplit ',' (String.mk (takeWhileNe '\t' (pythonStrip l).data))).headD "" := by
      simp only [skewKeyOf, hk]
      rw [hc]
      simp
    rw [hs, pySplit_headD]
  · have hc : (String.mk (takeWhileNe '\t' (pythonStrip l).data)).data.contains ',' = false := by
      simpa using hm
    have hs : skewKeyOf l = String.mk (takeWhileNe '\t' (pythonStrip l).data) := by
      simp only [skewKeyOf, hk]
      rw [hc]
      simp
    rw [hs, takeWhileNe_of_not_mem hm]

theorem skewedContains_iff (lines : List String) (hne : lines ≠ []) (k : String) :
    skewedContains lines k = true ↔
      (((lines.map skewKeyOf).count k : ℚ) >
        max ((1 / 100 : ℚ) * (lines.length : ℚ))
          (5 * (lines.length : ℚ) / ((firstDedup (lines.map skewKeyOf)).length : ℚ))) := by
  have hkeys : lines.map skewKeyOf ≠ [] := by
    simpa using hne
  have hflip : ((lines.length : ℚ) / ((firstDedup (lines.map skewKeyOf)).length : ℚ)) * 5 =
      5 * (lines.length : ℚ) / ((firstDedup (lines.map skewKeyOf)).length : ℚ) := by
    ring
  have hsk : (analyze_key_distribution_default lines).skewed_keys =
      some ((firstDedup (lines.map skewKeyOf)).filter
        (fun k => (((lines.map skewKeyOf).count k : ℕ) : ℚ) >
          max ((1 / 100 : ℚ) * (lines.length : ℚ))
            (((lines.length : ℚ) / ((firstDedup (lines.map skewKeyOf)).length : ℚ)) * 5))) := by
    unfold analyze_key_distribution_default analyze_key_distribution
    rw [if_neg hkeys]
  have hcontains : skewedContains lines k =
      ((firstDedup (lines.map skewKeyOf)).filter
        (fun k => (((lines.map skewKeyOf).count k : ℕ) : ℚ) >
          max ((1 / 100 : ℚ) * (lines.length : ℚ))
            (((lines.length : ℚ) / ((firstDedup (lines.map skewKeyOf)).length : ℚ)) * 5))).contains k := by
    unfold skewedContains
    rw [hsk]
  have hc2 : ∀ (L : List String), (L.contains k = true) ↔ k ∈ L := by
    intro L
    simp
  rw [hcontains, hc2, List.mem_filter]
  constructor
  · rintro ⟨_, hp⟩
    have hp' := of_decide_eq_true hp
    rw [hflip] at hp'
    exact hp'
  · intro hgt
    have h0 : (0 : ℚ) ≤ max ((1 / 100 : ℚ) * (lines.length : ℚ))
        (5 * (lines.length : ℚ) / ((firstDedup (lines.map skewKeyOf)).length : ℚ)) := by
      refine le_trans ?_ (le_max_left _ _)
      positivity
    have hcpos : (0 : ℚ) < (((lines.map skewKeyOf).count k : ℕ) : ℚ) :=
      lt_of_le_of_lt h0 hgt
    have hcnat : 0 < (lines.map skewKeyOf).count k := by
      exact_mod_cast hcpos
    have hmemkeys : k ∈ lines.map skewKeyOf := by
      by_contra hnm
      rw [List.count_eq_zero_of_not_mem hnm] at hcnat
      exact Nat.lt_irrefl 0 hcnat
    refine ⟨(firstDedup_mem _ k).mpr hmemkeys, decide_eq_true ?_⟩
    rw [hflip]
    exact hgt

/-- Claim C4: for a nonempty input stream the default skew analysis counts
one record per line under the primary key (the part of the tab-key before
the first comma), reports `threshold = max(0.01 * totalRecords,
5 * totalRecords / uniqueKeys)`, and reports exactly the keys whose count
strictly exceeds that threshold as skewed. -/
theorem skew_profile (lines : List String) (hne : lines ≠ []) :
    (analyze_key_distribution_default lines).total_records = some lines.length ∧
    (analyze_key_distribution_default lines).skew_threshold =
      some (max ((1 / 100 : ℚ) * (lines.length : ℚ))
        (5 * (lines.length : ℚ) / ((firstDedup (lines.map skewKeyOf)).length : ℚ))) ∧
    (∀ k, skewedContains lines k = true ↔
      (((lines.map skewKeyOf).count k : ℚ) >
        max ((1 / 100 : ℚ) * (lines.length : ℚ))
          (5 * (lines.length : ℚ) / ((firstDedup (lines.map skewKeyOf)).length : ℚ)))) ∧
    (∀ l, skewKeyOf l =
      String.mk (takeWhileNe ',' (takeWhileNe '\t' (pythonStrip l).data))) := by
  have hkeys : lines.map skewKeyOf ≠ [] := by
    simpa using hne
  have hflip : ((lines.length : ℚ) / ((firstDedup (lines.map skewKeyOf)).length : ℚ)) * 5 =
      5 * (lines.length : ℚ) / ((firstDedup (lines.map skewKeyOf)).length : ℚ) := by
    ring
  have htot : (analyze_key_distribution_default lines).total_records = some lines.length := by
    unfold analyze_key_distribution_default analyze_key_distribution
    rw [if_neg hkeys]
  have hthr : (analyze_key_distribution_default lines).skew_threshold =
      some (max ((1 / 100 : ℚ) * (lines.length : ℚ))
        (((lines.length : ℚ) / ((firstDedup (lines.map skewKeyOf)).length : ℚ)) * 5)) := by
    unfold analyze_key_distribution_default analyze_key_distribution
    rw [if_neg hkeys]
  exact ⟨htot, by rw [hthr, hflip], fun k => skewedContains_iff lines hne k, skewKeyOf_eq⟩

/-- Witness for C4 at a small concrete stream of three records over two
keys. -/
theorem skew_profile_witness :
    (analyze_key_distribution_default ["a\t1", "a\t2", "b\t1"]).total_records =
      some (["a\t1", "a\t2", "b\t1"] : List String).length :=
  (skew_profile ["a\t1", "a\t2", "b\t1"] (by decide)).1

/-- Claim C5 (amended): a key already reported as skewed stays skewed when
more records are appended for it while all other keys' counts stay fixed.
(The second half of the original claim fails: the added records raise the
total and hence the threshold, which can drop *other* keys out of the
skewed set — see the counterexample.) -/
theorem skew_monotonic (lines extra : List String) (k : String)
    (hk : skewedContains lines k = true) (hne : extra ≠ [])
    (hkeys : ∀ l ∈ extra, skewKeyOf l = k) :
    skewedContains (lines ++ extra) k = true := by
  have hlne : lines ≠ [] := by
    intro h
    subst h
    simp [skewedContains, analyze_key_distribution_default,
      analyze_key_distribution] at hk
  have hgt := (skewedContains_iff lines hlne k).mp hk
  have h1 : (1 / 100 : ℚ) * (lines.length : ℚ) <
      (((lines.map skewKeyOf).count k : ℕ) : ℚ) :=
    lt_of_le_of_lt (le_max_left _ _) hgt
  have h2 : 5 * (lines.length : ℚ) / ((firstDedup (lines.map skewKeyOf)).length : ℚ) <
      (((lines.map skewKeyOf).count k : ℕ) : ℚ) :=
    lt_of_le_of_lt (le_max_right _ _) hgt
  have hcleT : (lines.map skewKeyOf).count k ≤ lines.length := by
    have := List.count_le_length k (lines.map skewKeyOf)
    simpa using this
  have h3 : (((lines.map skewKeyOf).count k : ℕ) : ℚ) ≤ (lines.length : ℚ) := by
    exact_mod_cast hcleT
  have hTpos : 0 < lines.length := List.length_pos.mpr hlne
  have h4 : (0 : ℚ) < (lines.length : ℚ) := by exact_mod_cast hTpos
  have hcpos : 0 < (lines.map skewKeyOf).count k := by
    have : (0 : ℚ) < (((lines.map skewKeyOf).count k : ℕ) : ℚ) := by
      refine lt_of_le_of_lt ?_ h1
      positivity
    exact_mod_cast this
  have hkmem : k ∈ lines.map skewKeyOf := by
    by_contra hnm
    rw [List.count_eq_zero_of_not_mem hnm] at hcpos
    exact Nat.lt_irrefl 0 hcpos
  have humem : k ∈ firstDedup (lines.map skewKeyOf) := (firstDedup_mem _ k).mpr hkmem
  have hupos : 0 < (firstDedup (lines.map skewKeyOf)).length :=
    List.length_pos.mpr (List.ne_nil_of_mem humem)
  have h5 : (0 : ℚ) < ((firstDedup (lines.map skewKeyOf)).length : ℚ) := by
    exact_mod_cast hupos
  have hdpos : 0 < extra.length := List.length_pos.mpr hne
  have h6 : (1 : ℚ) ≤ (extra.length : ℚ) := by exact_mod_cast hdpos
  have h7 : 5 * (lines.length : ℚ) <
      (((lines.map skewKeyOf).count k : ℕ) : ℚ) *
        ((firstDedup (lines.map skewKeyOf)).length : ℚ) :=
    (div_lt_iff h5).mp h2
  have h8 : (5 : ℚ) < ((firstDedup (lines.map skewKeyOf)).length : ℚ) := by
    have hmul : (((lines.map skewKeyOf).count k : ℕ) : ℚ) *
        ((firstDedup (lines.map skewKeyOf)).length : ℚ) ≤
        (lines.length : ℚ) * ((firstDedup (lines.map skewKeyOf)).length : ℚ) :=
      mul_le_mul_of_nonneg_right h3 (le_of_lt h5)
    have h5T : (lines.length : ℚ) * 5 <
        (lines.length : ℚ) * ((firstDedup (lines.map skewKeyOf)).length : ℚ) := by
      calc (lines.length : ℚ) * 5 = 5 * (lines.length : ℚ) := by ring
        _ < _ := lt_of_lt_of_le h7 hmul
    exact (mul_lt_mul_left h4).mp h5T
  have h9 : (6 : ℚ) ≤ ((firstDedup (lines.map skewKeyOf)).length : ℚ) := by
    have : 5 < (firstDedup (lines.map skewKeyOf)).length := by exact_mod_cast h8
    exact_mod_cast this
  have hL2 : lines ++ extra ≠ [] := by
    intro h
    exact hlne (List.append_eq_nil.mp h).1
  apply (skewedContains_iff (lines ++ extra) hL2 k).mpr
  have hmap2 : (lines ++ extra).map skewKeyOf =
      lines.map skewKeyOf ++ extra.map skewKeyOf := List.map_append _ _ _
  have hextraall : ∀ y ∈ extra.map skewKeyOf, k = y := by
    intro y hy
    rcases List.mem_map.mp hy with ⟨l, hl, hly⟩
    exact (hly ▸ (hkeys l hl)).symm
  have hcount2 : ((lines ++ extra).map skewKeyOf).count k =
      (lines.map skewKeyOf).count k + extra.length := by
    rw [hmap2, List.count_append]
    have : (extra.map skewKeyOf).count k = (extra.map skewKeyOf).length :=
      List.count_eq_length.mpr hextraall
    rw [this, List.length_map]
  have huniq2 : firstDedup ((lines ++ extra).map skewKeyOf) =
      firstDedup (lines.map skewKeyOf) := by
    rw [hmap2]
    refine firstDedup_append_absorb _ _ ?_
    intro y hy
    exact (hextraall y hy) ▸ hkmem
  rw [hcount2, huniq2, List.length_append]
  push_cast
  rw [gt_iff_lt, max_lt_iff]
  constructor
  · have hd100 : (extra.length : ℚ) / 100 ≤ (extra.length : ℚ) := by
      linarith
    have hexp : (1 / 100 : ℚ) * ((lines.length : ℚ) + (extra.length : ℚ)) =
        (1 / 100 : ℚ) * (lines.length : ℚ) + (extra.length : ℚ) / 100 := by
      ring
    rw [hexp]
    linarith
  · rw [div_lt_iff h5]
    have h10 : (extra.length : ℚ) * 6 ≤
        (extra.length : ℚ) * ((firstDedup (lines.map skewKeyOf)).length : ℚ) := by
      refine mul_le_mul_of_nonneg_left h9 ?_
      linarith
    nlinarith [h7, h10, h6]

/-- Claim C5 (counterexample): in a stream where both `a` and `b` are
skewed (46 records each, nine singleton keys, 101 records total, threshold
505/11 ≈ 45.9), appending one more record for the skewed key `a` — holding
every other key's count fixed — raises the threshold to 510/11 ≈ 46.4 and
silently drops `b` from the skewed set: increasing one key's frequency can
change another key's membership. -/
theorem skew_monotonic_cex :
    skewedContains (List.replicate 46 "a" ++ List.replicate 46 "b" ++
        ["c", "d", "e", "f", "g", "h", "i", "j", "k"]) "a" = true ∧
      skewedContains (List.replicate 46 "a" ++ List.replicate 46 "b" ++
        ["c", "d", "e", "f", "g", "h", "i", "j", "k"]) "b" = true ∧
      (∀ l ∈ ["a"], skewKeyOf l = "a") ∧
      skewedContains ((List.replicate 46 "a" ++ List.replicate 46 "b" ++
        ["c", "d", "e", "f", "g", "h", "i", "j", "k"]) ++ ["a"]) "b" = false := by
  have hiff1 := fun k => skewedContains_iff (List.replicate 46 "a" ++ List.replicate 46 "b" ++
    ["c", "d", "e", "f", "g", "h", "i", "j", "k"]) (by decide) k
  have hiff2 := fun k => skewedContains_iff ((List.replicate 46 "a" ++ List.replicate 46 "b" ++
    ["c", "d", "e", "f", "g", "h", "i", "j", "k"]) ++ ["a"]) (by decide) k
  have hca : ((List.replicate 46 "a" ++ List.replicate 46 "b" ++
      ["c", "d", "e", "f", "g", "h", "i", "j", "k"]).map skewKeyOf).count "a" = 46 := by
    decide
  have hcb : ((List.replicate 46 "a" ++ List.replicate 46 "b" ++
      ["c", "d", "e", "f", "g", "h", "i", "j", "k"]).map skewKeyOf).count "b" = 46 := by
    decide
  have hu : (firstDedup ((List.replicate 46 "a" ++ List.replicate 46 "b" ++
      ["c", "d", "e", "f", "g", "h", "i", "j", "k"]).map skewKeyOf)).length = 11 := by
    decide
  have hT : (List.replicate 46 "a" ++ List.replicate 46 "b" ++
      ["c", "d", "e", "f", "g", "h", "i", "j", "k"] : List String).length = 101 := by
    decide
  have hcb2 : (((List.replicate 46 "a" ++ List.replicate 46 "b" ++
      ["c", "d", "e", "f", "g", "h", "i", "j", "k"]) ++ ["a"]).map skewKeyOf).count "b" = 46 := by
    decide
  have hu2 : (firstDedup (((List.replicate 46 "a" ++ List.replicate 46 "b" ++
      ["c", "d", "e", "f", "g", "h", "i", "j", "k"]) ++ ["a"]).map skewKeyOf)).length = 11 := by
    decide
  have hT2 : ((List.replicate 46 "a" ++ List.replicate 46 "b" ++
      ["c", "d", "e", "f", "g", "h", "i", "j", "k"]) ++ ["a"] : List String).length = 102 := by
    decide
  refine ⟨?_, ?_, by decide, ?_⟩
  · refine (hiff1 "a").mpr ?_
    rw [hca, hu, hT]
    push_cast
    rw [gt_iff_lt, max_lt_iff]
    constructor
    · norm_num
    · norm_num
  · refine (hiff1 "b").mpr ?_
    rw [hcb, hu, hT]
    push_cast
    rw [gt_iff_lt, max_lt_iff]
    constructor
    · norm_num
    · norm_num
  · have hne : skewedContains ((List.replicate 46 "a" ++ List.replicate 46 "b" ++
        ["c", "d", "e", "f", "g", "h", "i", "j", "k"]) ++ ["a"]) "b" ≠ true := by
      intro htrue
      have hP := (hiff2 "b").mp htrue
      rw [hcb2, hu2, hT2] at hP
      push_cast at hP
      have hlt := lt_of_le_of_lt (le_max_right _ _) hP
      norm_num at hlt
    exact Bool.eq_false_iff.mpr hne

/-- Witness for C5: the skewed key `a` (26 of 31 records, six unique keys)
stays skewed after one more `a` record is appended. -/
theorem skew_monotonic_witness :
    skewedContains ((List.replicate 26 "a" ++ ["b", "c", "d", "e", "f"]) ++ ["a"])
      "a" = true :=
  skew_monotonic (List.replicate 26 "a" ++ ["b", "c", "d", "e", "f"]) ["a"] "a"
    (by
      refine (skewedContains_iff (List.replicate 26 "a" ++ ["b", "c", "d", "e", "f"])
        (by decide) "a").mpr ?_
      have hc : ((List.replicate 26 "a" ++
          ["b", "c", "d", "e", "f"]).map skewKeyOf).count "a" = 26 := by decide
      have hu : (firstDedup ((List.replicate 26 "a" ++
          ["b", "c", "d", "e", "f"]).map skewKeyOf)).length = 6 := by decide
      have hT : (List.replicate 26 "a" ++
          ["b", "c", "d", "e", "f"] : List String).length = 31 := by decide
      rw [hc, hu, hT]
      push_cast
      rw [gt_iff_lt, max_lt_iff]
      constructor
      · norm_num
      · norm_num)
    (by decide) (by decide)

/-- Claim C8 (counterexample): the zero-record report omits three fields of
the skew-report interface: `average_records_per_key`, `skewed_keys_count`
and `distribution_stats` are absent from the dict the empty branch
returns. -/
theorem skew_empty_cex :
    (analyze_key_distribution_default []).average_records_per_key = none ∧
      (analyze_key_distribution_default []).skewed_keys_count = none ∧
      (analyze_key_distribution_default []).distribution_stats = none :=
  ⟨rfl, rfl, rfl⟩

/-- Claim C8 (amended): the zero-record analysis returns threshold `0` and
an empty skewed set (no division is performed), but its report carries only
`total_records`, `unique_keys`, `skew_threshold`, `skewed_keys` and
`top_keys`; the remaining interface fields — `average_records_per_key`,
`skewed_keys_count`, `distribution_stats` — appear only in reports for
nonempty input. -/
theorem skew_empty_report :
    ((analyze_key_distribution_default []).total_records = some 0 ∧
     (analyze_key_distribution_default []).unique_keys = some 0 ∧
     (analyze_key_distribution_default []).skew_threshold = some 0 ∧
     (analyze_key_distribution_default []).skewed_keys = some [] ∧
     (analyze_key_distribution_default []).top_keys = some []) ∧
    ∀ lines : List String, lines ≠ [] →
      ((analyze_key_distribution_default lines).average_records_per_key ≠ none ∧
       (analyze_key_distribution_default lines).skewed_keys_count ≠ none ∧
       (analyze_key_distribution_default lines).distribution_stats ≠ none) := by
  constructor
  · exact ⟨rfl, rfl, rfl, rfl, rfl⟩
  · intro lines hne
    have hkeys : lines.map skewKeyOf ≠ [] := by simpa using hne
    refine ⟨?_, ?_, ?_⟩
    · unfold analyze_key_distribution_default analyze_key_distribution
      rw [if_neg hkeys]
      simp
    · unfold analyze_key_distribution_default analyze_key_distribution
      rw [if_neg hkeys]
      simp
    · unfold analyze_key_distribution_default analyze_key_distribution
      rw [if_neg hkeys]
      simp

/-- Witness for C8: the one-record stream `x` gets a full report. -/
theorem skew_empty_report_witness :
    (analyze_key_distribution_default ["x"]).distribution_stats ≠ none :=
  (skew_empty_report.2 ["x"] (by decide)).2.2
